import Mathlib

/-!
Verification development for the agency claim-table generator
(`jabiloldclaim.py`).  The core pipeline is embedded shallowly:

* calendar dates are records of year/month/day, with pandas' month
  offsets (`pd.DateOffset(months=n)` clamps the day to the target
  month's length), `replace(day=k)`, and day stepping;
* float arithmetic on hours/rates is embedded as exact rationals;
* the dataframe pipeline (normalize, join, eligibility filter, cycle
  assignment, groupby aggregation, cycle-table build, recruiter
  summaries) is embedded as functions on lists of records.
-/

namespace JabilClaim

/-- Gregorian leap-year test (as used by the underlying date library). -/
def isLeap (y : Int) : Bool :=
  (y % 4 == 0 && y % 100 != 0) || (y % 400 == 0)

/-- Number of days in a month of a given year. -/
def daysInMonth (y : Int) (m : Nat) : Nat :=
  if m = 2 then (if isLeap y then 29 else 28)
  else if m = 4 ∨ m = 6 ∨ m = 9 ∨ m = 11 then 30
  else 31

/-- A calendar date (the date part of a pandas Timestamp). -/
structure Date where
  year : Int
  month : Nat
  day : Nat
deriving DecidableEq, Repr

/-- A date is a valid calendar date. -/
def Date.Valid (d : Date) : Prop :=
  1 ≤ d.month ∧ d.month ≤ 12 ∧ 1 ≤ d.day ∧ d.day ≤ daysInMonth d.year d.month

instance (d : Date) : Decidable d.Valid := by
  unfold Date.Valid; exact inferInstance

/-- Chronological order on dates (timestamp comparison in the source),
which is lexicographic on (year, month, day). -/
def Date.le (a b : Date) : Prop :=
  a.year < b.year ∨
    (a.year = b.year ∧ (a.month < b.month ∨ (a.month = b.month ∧ a.day ≤ b.day)))

instance (a b : Date) : Decidable (Date.le a b) := by
  unfold Date.le; exact inferInstance

/-- Month index: counts months linearly; used to reason about month offsets. -/
def mIdx (d : Date) : Int := 12 * d.year + (d.month : Int)

/-- A linear key that agrees with chronological order on in-range dates. -/
def key (d : Date) : Int := 372 * d.year + 31 * (d.month : Int) + (d.day : Int)

/-- Field bounds shared by every valid date (validity minus the exact
month-length bound). -/
def InRange (d : Date) : Prop :=
  1 ≤ d.month ∧ d.month ≤ 12 ∧ 1 ≤ d.day ∧ d.day ≤ 31

instance (d : Date) : Decidable (InRange d) := by
  unfold InRange; exact inferInstance

theorem daysInMonth_bounds (y : Int) (m : Nat) :
    28 ≤ daysInMonth y m ∧ daysInMonth y m ≤ 31 := by
  unfold daysInMonth
  split <;> [skip; split] <;> first
  | (split <;> omega)
  | omega

theorem Date.Valid.inRange {d : Date} (h : d.Valid) : InRange d := by
  obtain ⟨h1, h2, h3, h4⟩ := h
  have := daysInMonth_bounds d.year d.month
  exact ⟨h1, h2, h3, by omega⟩

theorem le_iff_key {a b : Date} (ha : InRange a) (hb : InRange b) :
    Date.le a b ↔ key a ≤ key b := by
  obtain ⟨ay, am, ad⟩ := a
  obtain ⟨by', bm, bd⟩ := b
  simp only [Date.le, key, InRange] at *
  omega

theorem le_iff_mIdx {a b : Date} (ha : InRange a) (hb : InRange b) :
    Date.le a b ↔ (mIdx a < mIdx b ∨ (mIdx a = mIdx b ∧ a.day ≤ b.day)) := by
  obtain ⟨ay, am, ad⟩ := a
  obtain ⟨by', bm, bd⟩ := b
  simp only [Date.le, mIdx, InRange] at *
  omega

theorem Date.le_refl (a : Date) : Date.le a a := by
  simp [Date.le]

theorem Date.le_total (a b : Date) : Date.le a b ∨ Date.le b a := by
  simp only [Date.le]; omega

theorem Date.le_antisymm {a b : Date} (h1 : Date.le a b) (h2 : Date.le b a) :
    a = b := by
  obtain ⟨ay, am, ad⟩ := a
  obtain ⟨by', bm, bd⟩ := b
  simp only [Date.le] at h1 h2
  simp only [Date.mk.injEq]
  omega

theorem eq_iff_mIdx_day {a b : Date} (ha : InRange a) (hb : InRange b) :
    a = b ↔ (mIdx a = mIdx b ∧ a.day = b.day) := by
  obtain ⟨ay, am, ad⟩ := a
  obtain ⟨by', bm, bd⟩ := b
  simp only [mIdx, InRange, Date.mk.injEq] at *
  omega

/-- `d + pd.DateOffset(months=n)`: advance `n` months, clamping the day
to the length of the target month (pandas semantics). -/
def addMonths (d : Date) (n : Nat) : Date :=
  let t := d.month - 1 + n
  let y := d.year + (t / 12 : Nat)
  let m := t % 12 + 1
  ⟨y, m, min d.day (daysInMonth y m)⟩

/-- `d - pd.DateOffset(months=1)`: step one month back, clamping the day. -/
def subMonths1 (d : Date) : Date :=
  if d.month = 1 then ⟨d.year - 1, 12, min d.day (daysInMonth (d.year - 1) 12)⟩
  else ⟨d.year, d.month - 1, min d.day (daysInMonth d.year (d.month - 1))⟩

/-- `d.replace(day=k)` (used with k = 23 and k = 24, always in range). -/
def Date.withDay (d : Date) (k : Nat) : Date := ⟨d.year, d.month, k⟩

/-- `d - pd.Timedelta(days=1)`. -/
def prevDay (d : Date) : Date :=
  if 2 ≤ d.day then ⟨d.year, d.month, d.day - 1⟩
  else if d.month = 1 then ⟨d.year - 1, 12, daysInMonth (d.year - 1) 12⟩
  else ⟨d.year, d.month - 1, daysInMonth d.year (d.month - 1)⟩

/-- `d + pd.Timedelta(days=1)`. -/
def nextDay (d : Date) : Date :=
  if d.day < daysInMonth d.year d.month then ⟨d.year, d.month, d.day + 1⟩
  else if d.month < 12 then ⟨d.year, d.month + 1, 1⟩
  else ⟨d.year + 1, 1, 1⟩

theorem addMonths_mIdx {d : Date} (h : InRange d) (n : Nat) :
    mIdx (addMonths d n) = mIdx d + n := by
  obtain ⟨y, m, dd⟩ := d
  simp only [InRange] at h
  simp only [addMonths, mIdx]
  omega

theorem addMonths_valid {d : Date} (h : d.Valid) (n : Nat) :
    (addMonths d n).Valid := by
  obtain ⟨y, m, dd⟩ := d
  simp only [Date.Valid] at h
  have hb := daysInMonth_bounds (y + (((m - 1 + n) / 12 : Nat) : Int))
    ((m - 1 + n) % 12 + 1)
  simp only [Date.Valid, addMonths]
  omega

theorem addMonths_inRange {d : Date} (h : d.Valid) (n : Nat) :
    InRange (addMonths d n) :=
  (addMonths_valid h n).inRange

theorem subMonths1_mIdx {d : Date} (h : InRange d) :
    mIdx (subMonths1 d) = mIdx d - 1 := by
  obtain ⟨y, m, dd⟩ := d
  simp only [InRange] at h
  simp only [subMonths1, mIdx]
  split <;> dsimp only <;> omega

theorem subMonths1_month {d : Date} (h : InRange d) :
    1 ≤ (subMonths1 d).month ∧ (subMonths1 d).month ≤ 12 := by
  obtain ⟨y, m, dd⟩ := d
  simp only [InRange] at h
  simp only [subMonths1]
  split <;> dsimp only <;> omega

theorem prevDay_valid {d : Date} (h : d.Valid) : (prevDay d).Valid := by
  obtain ⟨y, m, dd⟩ := d
  simp only [Date.Valid] at h
  have h1 := daysInMonth_bounds (y - 1) 12
  have h2 := daysInMonth_bounds y (m - 1)
  simp only [prevDay]
  split
  · simp only [Date.Valid]; omega
  · split <;> simp only [Date.Valid] <;> omega

theorem nextDay_valid {d : Date} (h : d.Valid) : (nextDay d).Valid := by
  obtain ⟨y, m, dd⟩ := d
  simp only [Date.Valid] at h
  have hb12 := daysInMonth_bounds y (m + 1)
  have hb1 := daysInMonth_bounds (y + 1) 1
  simp only [nextDay]
  split
  · simp only [Date.Valid]; omega
  · split <;> simp only [Date.Valid] <;> omega

theorem key_lt_nextDay {d : Date} (h : d.Valid) : key d < key (nextDay d) := by
  obtain ⟨y, m, dd⟩ := d
  simp only [Date.Valid] at h
  have hb := daysInMonth_bounds y m
  simp only [nextDay, key]
  split
  · dsimp only; omega
  · split <;> dsimp only <;> omega

/-- `prevDay` is the greatest date strictly below `x`:
`a ≤ x - 1 day` exactly when `x ≰ a`. -/
theorem prevDay_le_iff {a x : Date} (ha : a.Valid) (hx : x.Valid) :
    Date.le a (prevDay x) ↔ ¬ Date.le x a := by
  obtain ⟨ay, am, ad⟩ := a
  obtain ⟨xy, xm, xd⟩ := x
  simp only [Date.Valid] at ha hx
  obtain ⟨ham1, ham2, had1, had2⟩ := ha
  obtain ⟨hxm1, hxm2, hxd1, hxd2⟩ := hx
  simp only [prevDay]
  split
  · simp only [Date.le]; omega
  · split
    · -- x is the first day of January: prevDay x = Dec 31 of year - 1
      by_cases hya : ay = xy - 1 ∧ am = 12
      · obtain ⟨h2, h3⟩ := hya
        subst h2; subst h3
        simp only [Date.le, true_and, and_true, true_or, or_true]
        omega
      · have hbp := daysInMonth_bounds (xy - 1) 12
        simp only [Date.le, true_and, and_true, true_or, or_true]
        omega
    · -- x is the first day of a month other than January
      by_cases hya : ay = xy ∧ am = xm - 1
      · obtain ⟨h2, h3⟩ := hya
        subst h2; subst h3
        simp only [Date.le, true_and, and_true, true_or, or_true]
        omega
      · have hbp := daysInMonth_bounds xy (xm - 1)
        simp only [Date.le, true_and, and_true, true_or, or_true]
        omega

/-- `nextDay` is the least date strictly above `x`:
`x + 1 day ≤ a` exactly when `a ≰ x`. -/
theorem nextDay_le_iff {x a : Date} (hx : x.Valid) (ha : a.Valid) :
    Date.le (nextDay x) a ↔ ¬ Date.le a x := by
  obtain ⟨ay, am, ad⟩ := a
  obtain ⟨xy, xm, xd⟩ := x
  simp only [Date.Valid] at ha hx
  obtain ⟨ham1, ham2, had1, had2⟩ := ha
  obtain ⟨hxm1, hxm2, hxd1, hxd2⟩ := hx
  simp only [nextDay]
  split
  · simp only [Date.le]; omega
  · split
    · -- x is the last day of a month other than December
      by_cases hya : ay = xy ∧ am = xm
      · obtain ⟨h2, h3⟩ := hya
        subst h2; subst h3
        simp only [Date.le, true_and, and_true, true_or, or_true]
        omega
      · simp only [Date.le]
        omega
    · -- x is December 31
      by_cases hya : ay = xy ∧ am = xm
      · obtain ⟨h2, h3⟩ := hya
        subst h2; subst h3
        simp only [Date.le, true_and, and_true, true_or, or_true]
        omega
      · simp only [Date.le]
        omega

theorem not_le_nextDay {d : Date} (h : d.Valid) :
    ¬ Date.le (nextDay d) d := fun hle =>
  (nextDay_le_iff h h).mp hle (Date.le_refl d)

theorem mIdx_withDay (x : Date) (k : Nat) : mIdx (x.withDay k) = mIdx x := rfl

theorem day_withDay (x : Date) (k : Nat) : (x.withDay k).day = k := rfl

/-- Start of the claim cycle containing `d` (src `claim_cycle_info`,
lines 88-91): the 24th of d's month when `d.day >= 24`, else the 24th of
the previous month. -/
def cycleStart (d : Date) : Date :=
  if 24 ≤ d.day then d.withDay 24 else (subMonths1 d).withDay 24

/-- End of the claim cycle (src line 92): `(start + 1 month).replace(day=23)`. -/
def cycleEnd (d : Date) : Date := (addMonths (cycleStart d) 1).withDay 23

/-- `claim_cycle_info` (src lines 87-93) returns
`(f"{start}_to_{end}", start, end)`; the id string is a deterministic
injective rendering of the (start, end) pair, so it is modelled by the
pair itself. -/
def claim_cycle_info (d : Date) : Date × Date := (cycleStart d, cycleEnd d)

theorem cycleStart_day (d : Date) : (cycleStart d).day = 24 := by
  unfold cycleStart
  split <;> rfl

theorem cycleStart_mIdx {d : Date} (h : d.Valid) :
    (24 ≤ d.day → mIdx (cycleStart d) = mIdx d) ∧
    (d.day < 24 → mIdx (cycleStart d) = mIdx d - 1) := by
  unfold cycleStart
  by_cases h24 : 24 ≤ d.day
  · rw [if_pos h24]
    exact ⟨fun _ => mIdx_withDay d 24, fun hlt => absurd h24 (by omega)⟩
  · rw [if_neg h24]
    refine ⟨fun hge => absurd hge h24, fun _ => ?_⟩
    rw [mIdx_withDay, subMonths1_mIdx h.inRange]

theorem cycleStart_valid {d : Date} (h : d.Valid) : (cycleStart d).Valid := by
  obtain ⟨hm1, hm2, hd1, hd2⟩ := h.inRange
  unfold cycleStart
  by_cases h24 : 24 ≤ d.day
  · rw [if_pos h24]
    have hb := daysInMonth_bounds d.year d.month
    simp only [Date.withDay, Date.Valid]
    omega
  · rw [if_neg h24]
    have hsm := subMonths1_month (d := d) ⟨hm1, hm2, hd1, hd2⟩
    have hb := daysInMonth_bounds (subMonths1 d).year (subMonths1 d).month
    simp only [Date.withDay, Date.Valid]
    omega

theorem cycleEnd_day (d : Date) : (cycleEnd d).day = 23 := rfl

theorem cycleEnd_mIdx {d : Date} (h : d.Valid) :
    mIdx (cycleEnd d) = mIdx (cycleStart d) + 1 := by
  unfold cycleEnd
  rw [mIdx_withDay, addMonths_mIdx (cycleStart_valid h).inRange 1]
  omega

theorem cycleEnd_valid {d : Date} (h : d.Valid) : (cycleEnd d).Valid := by
  have ha := addMonths_inRange (cycleStart_valid h) 1
  obtain ⟨hm1, hm2, _, _⟩ := ha
  have hb := daysInMonth_bounds (addMonths (cycleStart d) 1).year
    (addMonths (cycleStart d) 1).month
  unfold cycleEnd
  simp only [Date.withDay, Date.Valid]
  omega

theorem cycleEnd_congr {d e : Date} (h : cycleStart e = cycleStart d) :
    cycleEnd e = cycleEnd d := by
  unfold cycleEnd
  rw [h]

/-- Membership in the window of `e`'s cycle is the same as having the
same cycle start. -/
theorem mem_cycle_iff {d e : Date} (hd : d.Valid) (he : e.Valid) :
    (Date.le (cycleStart e) d ∧ Date.le d (cycleEnd e)) ↔
      cycleStart e = cycleStart d := by
  obtain ⟨hdm1, hdm2, hdd1, hdd2⟩ := hd.inRange
  obtain ⟨hem1, hem2, hed1, hed2⟩ := he.inRange
  have hsd := cycleStart_mIdx hd
  have hse := cycleStart_mIdx he
  have hdayd := cycleStart_day d
  have hdaye := cycleStart_day e
  have hende := cycleEnd_mIdx he
  have henddy := cycleEnd_day e
  rw [le_iff_mIdx (cycleStart_valid he).inRange hd.inRange,
    le_iff_mIdx hd.inRange (cycleEnd_valid he).inRange,
    eq_iff_mIdx_day (cycleStart_valid he).inRange (cycleStart_valid hd).inRange]
  omega

/-- C1: the claim-cycle assignment puts every valid date `d` into a
window `[start, end]` with `start` the 24th of `d`'s month (day ≥ 24) or
of the previous month (day < 24), `end` the 23rd of the month after
`start`, containing `d`; and the windows partition the calendar: a date
`d` lies in the window of `e`'s cycle exactly when both cycles are the
same (start, end) pair, so windows of distinct pairs never overlap. -/
theorem claim_cycle_correct (d e : Date) (hd : d.Valid) (he : e.Valid) :
    (Date.le (cycleStart d) d ∧ Date.le d (cycleEnd d)) ∧
    (cycleStart d).day = 24 ∧
    (24 ≤ d.day → mIdx (cycleStart d) = mIdx d) ∧
    (d.day < 24 → mIdx (cycleStart d) = mIdx d - 1) ∧
    (cycleEnd d).day = 23 ∧
    mIdx (cycleEnd d) = mIdx (cycleStart d) + 1 ∧
    ((Date.le (cycleStart e) d ∧ Date.le d (cycleEnd e)) ↔
      claim_cycle_info e = claim_cycle_info d) := by
  have hmem := mem_cycle_iff hd he
  have hcontains : Date.le (cycleStart d) d ∧ Date.le d (cycleEnd d) :=
    (mem_cycle_iff hd hd).mpr rfl
  refine ⟨hcontains, cycleStart_day d, (cycleStart_mIdx hd).1,
    (cycleStart_mIdx hd).2, cycleEnd_day d, cycleEnd_mIdx hd, ?_⟩
  rw [hmem]
  unfold claim_cycle_info
  constructor
  · intro h
    rw [h, cycleEnd_congr h]
  · intro h
    exact (Prod.mk.injEq _ _ _ _).mp h |>.1

/-- Witness for C1 at the spec's examples: 2024-03-24 starts its own
cycle (2024-03-24 to 2024-04-23); 2024-03-23 falls in the previous one. -/
theorem claim_cycle_correct_witness :
    Date.Valid ⟨2024, 3, 24⟩ ∧ Date.Valid ⟨2024, 3, 23⟩ ∧
    ((Date.le (cycleStart ⟨2024, 3, 24⟩) ⟨2024, 3, 24⟩ ∧
        Date.le (⟨2024, 3, 24⟩ : Date) (cycleEnd ⟨2024, 3, 24⟩)) ∧
      (cycleStart ⟨2024, 3, 24⟩).day = 24 ∧
      (24 ≤ (⟨2024, 3, 24⟩ : Date).day →
        mIdx (cycleStart ⟨2024, 3, 24⟩) = mIdx ⟨2024, 3, 24⟩) ∧
      ((⟨2024, 3, 24⟩ : Date).day < 24 →
        mIdx (cycleStart ⟨2024, 3, 24⟩) = mIdx ⟨2024, 3, 24⟩ - 1) ∧
      (cycleEnd ⟨2024, 3, 24⟩).day = 23 ∧
      mIdx (cycleEnd ⟨2024, 3, 24⟩) = mIdx (cycleStart ⟨2024, 3, 24⟩) + 1 ∧
      ((Date.le (cycleStart ⟨2024, 3, 23⟩) ⟨2024, 3, 24⟩ ∧
          Date.le (⟨2024, 3, 24⟩ : Date) (cycleEnd ⟨2024, 3, 23⟩)) ↔
        claim_cycle_info ⟨2024, 3, 23⟩ = claim_cycle_info ⟨2024, 3, 24⟩)) ∧
    claim_cycle_info ⟨2024, 3, 24⟩ = (⟨2024, 3, 24⟩, ⟨2024, 4, 23⟩) ∧
    claim_cycle_info ⟨2024, 3, 23⟩ = (⟨2024, 2, 24⟩, ⟨2024, 3, 23⟩) :=
  ⟨by decide, by decide,
    claim_cycle_correct ⟨2024, 3, 24⟩ ⟨2024, 3, 23⟩ (by decide) (by decide),
    by decide, by decide⟩

/-- `ELIGIBLE_END` (src line 138):
`JOIN_DATE + pd.DateOffset(months=3) - pd.Timedelta(days=1)`. -/
def eligibleEnd (J : Date) : Date := prevDay (addMonths J 3)

/-- The eligibility filter (src lines 140-143):
`JOIN_DATE <= __Date <= ELIGIBLE_END`, both ends inclusive. -/
def eligibleFilter (recDate J : Date) : Prop :=
  Date.le J recDate ∧ Date.le recDate (eligibleEnd J)

instance (recDate J : Date) : Decidable (eligibleFilter recDate J) := by
  unfold eligibleFilter; exact inferInstance

/-- C2: the eligibility window is `[J, J + 3 calendar months - 1 day]`,
inclusive at both ends: a record dated exactly `J` passes the filter, a
record dated exactly at the window end passes, and a record dated one
day after the end does not; calendar-month arithmetic gives
2024-01-15 ↦ window end 2024-04-14. -/
theorem eligible_window_correct (J : Date) (hJ : J.Valid) :
    eligibleFilter J J ∧
    eligibleFilter (eligibleEnd J) J ∧
    ¬ eligibleFilter (nextDay (eligibleEnd J)) J ∧
    eligibleEnd ⟨2024, 1, 15⟩ = ⟨2024, 4, 14⟩ := by
  have hA : (addMonths J 3).Valid := addMonths_valid hJ 3
  have hAm : mIdx (addMonths J 3) = mIdx J + 3 := addMonths_mIdx hJ.inRange 3
  have hE : (eligibleEnd J).Valid := prevDay_valid hA
  have hnotAJ : ¬ Date.le (addMonths J 3) J := by
    rw [le_iff_mIdx hA.inRange hJ.inRange]
    omega
  have hJE : Date.le J (eligibleEnd J) := (prevDay_le_iff hJ hA).mpr hnotAJ
  refine ⟨⟨Date.le_refl J, hJE⟩, ⟨hJE, Date.le_refl _⟩, ?_, by decide⟩
  rintro ⟨h1, h2⟩
  exact not_le_nextDay hE h2

/-- Witness for C2 at the spec's example join date 2024-01-15. -/
theorem eligible_window_correct_witness :
    Date.Valid ⟨2024, 1, 15⟩ ∧
    (eligibleFilter ⟨2024, 1, 15⟩ ⟨2024, 1, 15⟩ ∧
      eligibleFilter (eligibleEnd ⟨2024, 1, 15⟩) ⟨2024, 1, 15⟩ ∧
      ¬ eligibleFilter (nextDay (eligibleEnd ⟨2024, 1, 15⟩)) ⟨2024, 1, 15⟩ ∧
      eligibleEnd ⟨2024, 1, 15⟩ = ⟨2024, 4, 14⟩) :=
  ⟨by decide, eligible_window_correct ⟨2024, 1, 15⟩ (by decide)⟩

/-! ### Identity normalizer, leave detection, durations -/

/-- `listStartsWith s k`: `k` is a prefix of `s`. -/
def listStartsWith : List Char → List Char → Bool
  | _, [] => true
  | [], _ :: _ => false
  | a :: s, b :: k => a == b && listStartsWith s k

/-- `listContainsSub k l`: `k` occurs contiguously inside `l`
(Python's `in` on strings). -/
def listContainsSub (k : List Char) : List Char → Bool
  | [] => listStartsWith [] k
  | a :: s => listStartsWith (a :: s) k || listContainsSub k s

/-- Python `k in s` for strings. -/
def strContains (s k : String) : Bool := listContainsSub k.data s.data

theorem listStartsWith_iff (k : List Char) : ∀ s : List Char,
    listStartsWith s k = true ↔ ∃ t, s = k ++ t := by
  induction k with
  | nil => intro s; simp [listStartsWith]
  | cons b k ih =>
    intro s
    cases s with
    | nil => simp [listStartsWith]
    | cons a s =>
      simp only [listStartsWith, Bool.and_eq_true, beq_iff_eq, ih,
        List.cons_append, List.cons.injEq]
      constructor
      · rintro ⟨h1, t, h2⟩
        exact ⟨t, h1, h2⟩
      · rintro ⟨t, h1, h2⟩
        exact ⟨h1, t, h2⟩

theorem listContainsSub_iff (k l : List Char) :
    listContainsSub k l = true ↔ ∃ p q, l = p ++ (k ++ q) := by
  induction l with
  | nil =>
    simp only [listContainsSub, listStartsWith_iff]
    constructor
    · rintro ⟨t, ht⟩
      exact ⟨[], t, ht⟩
    · rintro ⟨p, q, h⟩
      obtain ⟨hp, hkq⟩ := List.append_eq_nil.mp h.symm
      obtain ⟨hk, hq⟩ := List.append_eq_nil.mp hkq
      exact ⟨[], by simp [hk]⟩
  | cons a l ih =>
    simp only [listContainsSub, Bool.or_eq_true, listStartsWith_iff, ih]
    constructor
    · rintro (⟨t, h⟩ | ⟨p, q, h⟩)
      · exact ⟨[], t, by simpa using h⟩
      · exact ⟨a :: p, q, by simp [h]⟩
    · rintro ⟨p, q, h⟩
      cases p with
      | nil => exact Or.inl ⟨q, by simpa using h⟩
      | cons x p =>
        simp only [List.cons_append, List.cons.injEq] at h
        exact Or.inr ⟨p, q, h.2⟩

/-- Python `str.strip()`: drop whitespace from both ends. -/
def pyStrip (s : String) : String :=
  ⟨((s.data.dropWhile Char.isWhitespace).reverse.dropWhile
      Char.isWhitespace).reverse⟩

/-- Python `str.upper()`. -/
def pyUpper (s : String) : String := ⟨s.data.map Char.toUpper⟩

/-- Python `str.lower()`. -/
def pyLower (s : String) : String := ⟨s.data.map Char.toLower⟩

/-- Python `str.replace(" ", "")`: remove every space. -/
def removeSpaces (s : String) : String :=
  ⟨s.data.filter (fun c => !(c == ' '))⟩

/-- Python `str.endswith(k)`. -/
def strEndsWith (s k : String) : Bool :=
  listStartsWith s.data.reverse k.data.reverse

/-- Python `v[:-2]`: drop the last two characters. -/
def dropRight2 (s : String) : String := ⟨s.data.dropLast.dropLast⟩

/-- `_norm_empid` (src lines 50-54): missing values propagate as
missing; otherwise trim, uppercase, remove spaces and drop a trailing
`".0"`. -/
def _norm_empid (v : Option String) : Option String :=
  match v with
  | none => none
  | some s =>
    let t := removeSpaces (pyUpper (pyStrip s))
    some (if strEndsWith t ".0" then dropRight2 t else t)

/-- A numeric token carrying a trailing `".0"` serialization artifact. -/
def numericDotZero (t : String) : Bool :=
  strEndsWith t ".0" && !(dropRight2 t).data.isEmpty &&
    (dropRight2 t).data.all Char.isDigit

/-- C6: employee-id normalization trims, uppercases and removes internal
spaces; a numeric result with a trailing ".0" artifact has the suffix
stripped; null input stays null; and the spec's examples normalize as
stated. -/
theorem norm_empid_correct (s t : String)
    (ht : t = removeSpaces (pyUpper (pyStrip s))) :
    _norm_empid none = none ∧
    _norm_empid (some s) = some (if strEndsWith t ".0" then dropRight2 t else t) ∧
    (numericDotZero t = true → _norm_empid (some s) = some (dropRight2 t)) ∧
    _norm_empid (some "A100") = some "A100" ∧
    _norm_empid (some "a100 ") = some "A100" ∧
    _norm_empid (some "12345.0") = some "12345" := by
  subst ht
  refine ⟨rfl, rfl, ?_, by decide, by decide, by decide⟩
  intro h
  simp only [numericDotZero, Bool.and_eq_true] at h
  obtain ⟨⟨h1, h2⟩, h3⟩ := h
  simp only [_norm_empid]
  rw [if_pos h1]

/-- Witness for C6 at s = "12345.0", which exercises the ".0" branch. -/
theorem norm_empid_correct_witness :
    ("12345.0" : String) = removeSpaces (pyUpper (pyStrip "12345.0")) ∧
    (_norm_empid none = none ∧
      _norm_empid (some "12345.0") =
        some (if strEndsWith "12345.0" ".0"
          then dropRight2 "12345.0" else "12345.0") ∧
      (numericDotZero "12345.0" = true →
        _norm_empid (some "12345.0") = some (dropRight2 "12345.0")) ∧
      _norm_empid (some "A100") = some "A100" ∧
      _norm_empid (some "a100 ") = some "A100" ∧
      _norm_empid (some "12345.0") = some "12345") :=
  ⟨by decide, norm_empid_correct "12345.0" "12345.0" (by decide)⟩

/-- Leave keywords (src line 65). -/
def leaveKeywords : List String :=
  ["leave", "mc", "medical", "sick", "absent", "unpaid"]

/-- `_is_leave` (src lines 61-65): `None` is not leave; any other value
is converted to a string, lowercased, and checked for the keywords. -/
def _is_leave (v : Option String) : Bool :=
  match v with
  | none => false
  | some s => leaveKeywords.any (fun kw => strContains (pyLower s) kw)

/-- The `__Leave` column (src line 124): when the caller designates no
leave column the whole column is the scalar `False`. -/
def leaveColumn (leaveVals : List (Option String)) (hasLeaveCol : Bool) :
    List Bool :=
  if hasLeaveCol then leaveVals.map _is_leave
  else leaveVals.map (fun _ => false)

/-- C10: the leave flag is true iff the lowercased value contains one of
the keyword substrings; `None` maps to false; with no designated leave
column every record's flag is false. -/
theorem is_leave_correct (s : String) (v : List (Option String)) (b : Bool)
    (hb : b ∈ leaveColumn v false) :
    (_is_leave (some s) = true ↔
      ∃ kw ∈ leaveKeywords, ∃ p q, (pyLower s).data = p ++ (kw.data ++ q)) ∧
    _is_leave none = false ∧
    b = false := by
  refine ⟨?_, rfl, ?_⟩
  · simp only [_is_leave, List.any_eq_true, strContains, listContainsSub_iff]
  · have hb2 : b ∈ v.map (fun _ => false) := by simpa [leaveColumn] using hb
    obtain ⟨x, hx, hxb⟩ := List.mem_map.mp hb2
    exact hxb.symm

/-- Witness for C10: "On MC today" is leave, the column built with no
designated leave column yields false. -/
theorem is_leave_correct_witness :
    false ∈ leaveColumn [some "x"] false ∧
    ((_is_leave (some "On MC today") = true ↔
      ∃ kw ∈ leaveKeywords, ∃ p q,
        (pyLower "On MC today").data = p ++ (kw.data ++ q)) ∧
    _is_leave none = false ∧
    (false : Bool) = false) :=
  ⟨by decide, is_leave_correct "On MC today" [some "x"] false (by decide)⟩

/-- `_pair_duration` (src lines 68-74), parameterized by the timestamp
parser (`pd.to_datetime(...).hour/.minute`): each timestamp contributes
hour + minute/60; the result is out - in, plus 24 when out < in; a parse
failure on either side gives 0.0. -/
def _pair_duration (parse : String → Option (Nat × Nat)) (i o : String) : ℚ :=
  match parse i, parse o with
  | some (hi, mi), some (ho, mo) =>
    let x : ℚ := hi + mi / 60
    let y : ℚ := ho + mo / 60
    if x ≤ y then y - x else y + 24 - x
  | _, _ => 0

/-- The example parser for the spec's overnight-shift example. -/
def exTimeParse (s : String) : Option (Nat × Nat) :=
  if s = "23:30" then some (23, 30)
  else if s = "00:15" then some (0, 15) else none

/-- C8: the duration uses only each side's hour and minute, equals
out - in with 24 added when out is earlier than in, is 0 when either
side fails to parse, and the overnight example 23:30 → 00:15 gives 0.75
hours. -/
theorem pair_duration_correct (parse : String → Option (Nat × Nat))
    (i o : String) (hi mi ho mo : Nat)
    (h1 : parse i = some (hi, mi)) (h2 : parse o = some (ho, mo)) :
    (_pair_duration parse i o =
      (if (hi + mi / 60 : ℚ) ≤ ho + mo / 60
        then (ho + mo / 60 : ℚ) - (hi + mi / 60)
        else (ho + mo / 60 : ℚ) + 24 - (hi + mi / 60))) ∧
    (∀ i2 o2, parse i2 = none → _pair_duration parse i2 o2 = 0) ∧
    (∀ i2 o2, parse o2 = none → _pair_duration parse i2 o2 = 0) ∧
    _pair_duration exTimeParse "23:30" "00:15" = 3 / 4 := by
  have e1 : exTimeParse "23:30" = some (23, 30) := by decide
  have e2 : exTimeParse "00:15" = some (0, 15) := by decide
  refine ⟨?_, ?_, ?_, ?_⟩
  · simp [_pair_duration, h1, h2]
  · intro i2 o2 h
    simp [_pair_duration, h]
  · intro i2 o2 h
    cases hpi : parse i2 <;> simp [_pair_duration, h, hpi]
  · simp only [_pair_duration, e1, e2]
    norm_num

/-- Witness for C8 at the concrete example parser. -/
theorem pair_duration_correct_witness :
    exTimeParse "23:30" = some (23, 30) ∧ exTimeParse "00:15" = some (0, 15) ∧
    ((_pair_duration exTimeParse "23:30" "00:15" =
      (if ((23 : ℚ) + 30 / 60 : ℚ) ≤ 0 + 15 / 60
        then ((0 : ℚ) + 15 / 60 : ℚ) - (23 + 30 / 60)
        else ((0 : ℚ) + 15 / 60 : ℚ) + 24 - (23 + 30 / 60))) ∧
    (∀ i2 o2, exTimeParse i2 = none → _pair_duration exTimeParse i2 o2 = 0) ∧
    (∀ i2 o2, exTimeParse o2 = none → _pair_duration exTimeParse i2 o2 = 0) ∧
    _pair_duration exTimeParse "23:30" "00:15" = 3 / 4) :=
  ⟨by decide, by decide,
    pair_duration_correct exTimeParse "23:30" "00:15" 23 30 0 15
      (by decide) (by decide)⟩

/-! ### Date parsing with spreadsheet-serial fallback (C7) -/

/-- The fallback guard (src line 79): fullmatch of the regex
`\\d+(\\.0)?` - a non-empty digit string, optionally followed by ".0". -/
def serialPattern (s : String) : Bool :=
  let core := if strEndsWith s ".0" then dropRight2 s else s
  !core.data.isEmpty && core.data.all Char.isDigit

/-- Decimal value of a digit string. -/
def digitsToNat (l : List Char) : Nat :=
  l.foldl (fun acc c => 10 * acc + (c.toNat - 48)) 0

/-- Numeric value of a token matching `serialPattern`
(`astype(float)` with `unit="d"`, src line 81). -/
def serialValue (s : String) : Nat :=
  digitsToNat (if strEndsWith s ".0" then dropRight2 s else s).data

/-- The spreadsheet epoch `origin="1899-12-30"` (src line 81). -/
def serialEpoch : Date := ⟨1899, 12, 30⟩

/-- A date `n` days after `d`. -/
def addDays (d : Date) (n : Nat) : Date := nextDay^[n] d

/-- Per-element behavior of `_parse_dates` (src lines 77-83): the
locale-aware `pd.to_datetime(..., dayfirst=day_first)` parse is
abstracted as the `primary` parameter; where it fails (`NaT`) and the
token matches the integer pattern, the token counts days from the
epoch; otherwise the result is missing. -/
def parse_date (primary : String → Option Date) (raw : String) :
    Option Date :=
  match primary raw with
  | some d => some d
  | none =>
    if serialPattern raw then some (addDays serialEpoch (serialValue raw))
    else none

/-- The `__Date` notna filter (src lines 120-121): rows with unparseable
dates are dropped; surviving rows carry their parsed date. -/
def parseAndFilter (primary : String → Option Date)
    (rows : List (String × String)) : List ((String × String) × Date) :=
  rows.filterMap (fun r => (parse_date primary r.1).map (fun d => (r, d)))

set_option maxRecDepth 8000 in
/-- C7: parsing tries the locale-aware parse first; on failure a token
matching a whole number (optionally with ".0") is read as a day count
from 1899-12-30; tokens failing both yield none; every surviving row's
date is a successful parse and a row whose date fails to parse never
survives; serial 60 is 1900-02-28. -/
theorem parse_dates_correct (primary : String → Option Date) (raw : String)
    (d0 : Date) (rows : List (String × String)) (x : (String × String) × Date)
    (hx : x ∈ parseAndFilter primary rows) (r0 : String × String)
    (hfail : parse_date primary r0.1 = none) :
    (primary raw = some d0 → parse_date primary raw = some d0) ∧
    (primary raw = none →
      parse_date primary raw =
        (if serialPattern raw then some (addDays serialEpoch (serialValue raw))
         else none)) ∧
    parse_date primary x.1.1 = some x.2 ∧
    (∀ d, (r0, d) ∉ parseAndFilter primary rows) ∧
    serialPattern "60.0" = true ∧ serialValue "60.0" = 60 ∧
    addDays serialEpoch 60 = ⟨1900, 2, 28⟩ := by
  refine ⟨?_, ?_, ?_, ?_, by decide, by decide, by decide⟩
  · intro h
    simp [parse_date, h]
  · intro h
    simp [parse_date, h]
  · obtain ⟨r, hr, hm⟩ := List.mem_filterMap.mp hx
    obtain ⟨d, hd, heq⟩ := Option.map_eq_some'.mp hm
    rw [heq.symm]
    exact hd
  · intro d hmem
    obtain ⟨r, hr, hm⟩ := List.mem_filterMap.mp hmem
    obtain ⟨d2, hd2, heq⟩ := Option.map_eq_some'.mp hm
    injection heq with h1 h2
    rw [h1] at hd2
    rw [hfail] at hd2
    exact Option.noConfusion hd2

/-- The example primary parser used by the C7 witness. -/
def exPrimary (s : String) : Option Date :=
  if s = "05/01/2024" then some ⟨2024, 1, 5⟩ else none

set_option maxRecDepth 8000 in
/-- Witness for C7: a locale-parsed row survives; a row failing both
parse paths is dropped. -/
theorem parse_dates_correct_witness :
    (("05/01/2024", "p"), (⟨2024, 1, 5⟩ : Date)) ∈
      parseAndFilter exPrimary [("05/01/2024", "p"), ("bad", "q")] ∧
    parse_date exPrimary "bad" = none ∧
    ((exPrimary "60.0" = some ⟨1900, 2, 28⟩ →
        parse_date exPrimary "60.0" = some ⟨1900, 2, 28⟩) ∧
      (exPrimary "60.0" = none →
        parse_date exPrimary "60.0" =
          (if serialPattern "60.0"
            then some (addDays serialEpoch (serialValue "60.0"))
            else none)) ∧
      parse_date exPrimary "05/01/2024" = some ⟨2024, 1, 5⟩ ∧
      (∀ d, (("bad", "q"), d) ∉
        parseAndFilter exPrimary [("05/01/2024", "p"), ("bad", "q")]) ∧
      serialPattern "60.0" = true ∧ serialValue "60.0" = 60 ∧
      addDays serialEpoch 60 = ⟨1900, 2, 28⟩) :=
  ⟨by decide, by decide,
    parse_dates_correct exPrimary "60.0" ⟨1900, 2, 28⟩
      [("05/01/2024", "p"), ("bad", "q")]
      (("05/01/2024", "p"), ⟨2024, 1, 5⟩) (by decide)
      ("bad", "q") (by decide)⟩

/-! ### The joined/eligible pipeline and daily aggregation (C3, C4) -/

/-- `effective_threshold` (src line 32). -/
def effective_threshold (hours_per_day grace_minutes : ℚ) : ℚ :=
  max 0 (hours_per_day - grace_minutes / 60)

/-- `Worked_Day` (src lines 164-167): 0 on any leave, else 1 when the
day's total hours reach the threshold. -/
def workedDayOf (anyLeave : Bool) (totalHours thr : ℚ) : ℕ :=
  if anyLeave then 0 else if thr ≤ totalHours then 1 else 0

/-- A normalized attendance row (src lines 119-125): canonical id and
name, parsed date, computed hours, leave flag. -/
structure NormRow where
  empID : String
  name : String
  date : Date
  hours : ℚ
  leave : Bool
deriving DecidableEq, Repr

/-- An eligible joined row (src lines 133-149): the attendance fields
plus the masterlist join date and recruiter, the eligibility end, and
the assigned claim cycle. -/
structure JoinedRec where
  empID : String
  name : String
  joinDate : Date
  eligEnd : Date
  recruiter : String
  date : Date
  cycStart : Date
  cycEnd : Date
  hours : ℚ
  leave : Bool
deriving DecidableEq, Repr

/-- `dict(zip(mst[m_emp], mst[m_join]))` and
`dict(zip(mst[m_emp], mst[m_rec]))` (src lines 130-131): both dicts are
keyed by the same normalized id column, so they are modelled as one
lookup returning the (join date, recruiter) pair; a Python dict keeps
the last of duplicate keys, hence the reversed lookup. -/
def dictLookup (mst : List (String × Date × String)) (e : String) :
    Option (Date × String) :=
  List.lookup e mst.reverse

/-- Src lines 133-149: map the join date and recruiter onto each row,
dropping unmatched ids (notna filter on `JOIN_DATE`), compute
`ELIGIBLE_END`, keep rows inside the eligibility window, and assign the
claim cycle.  (The cycle columns are per-row functions of the date, so
computing them before instead of after the window filter is
equivalent.) -/
def eligibleRows (mst : List (String × Date × String)) (rows : List NormRow) :
    List JoinedRec :=
  (rows.filterMap (fun r =>
      (dictLookup mst r.empID).map (fun jr =>
        (⟨r.empID, r.name, jr.1, eligibleEnd jr.1, jr.2, r.date,
          cycleStart r.date, cycleEnd r.date, r.hours, r.leave⟩ : JoinedRec)))).filter
    (fun r => decide (Date.le r.joinDate r.date) &&
      decide (Date.le r.date r.eligEnd))

/-- The groupby key of the daily aggregation (src lines 153-156). -/
@[ext]
structure DailyKey where
  empID : String
  name : String
  joinDate : Date
  eligEnd : Date
  recruiter : String
  date : Date
  cycStart : Date
  cycEnd : Date
deriving DecidableEq, Repr

def keyOf (r : JoinedRec) : DailyKey :=
  ⟨r.empID, r.name, r.joinDate, r.eligEnd, r.recruiter, r.date,
    r.cycStart, r.cycEnd⟩

/-- One row of the `daily` frame (src lines 152-167). -/
structure DailyRec where
  key : DailyKey
  totalHours : ℚ
  anyLeave : Bool
  workedDay : ℕ
deriving DecidableEq, Repr

/-- The aggregate row for one groupby key: summed hours, any-leave
(`max` of booleans), and the worked-day decision. -/
def mkDaily (thr : ℚ) (rows : List JoinedRec) (k : DailyKey) : DailyRec :=
  let grp := rows.filter (fun r => decide (keyOf r = k))
  let th := (grp.map JoinedRec.hours).sum
  let al := grp.any JoinedRec.leave
  ⟨k, th, al, workedDayOf al th thr⟩

/-- Daily aggregation (src lines 152-167): one output row per distinct
groupby key.  (pandas emits groups in sorted key order; the claims do
not depend on row order, so distinct keys are taken in list order.) -/
def dailyAgg (thr : ℚ) (rows : List JoinedRec) : List DailyRec :=
  ((rows.map keyOf).dedup).map (mkDaily thr rows)

theorem elig_fields {mst : List (String × Date × String)}
    {rows : List NormRow} {r : JoinedRec} (h : r ∈ eligibleRows mst rows) :
    dictLookup mst r.empID = some (r.joinDate, r.recruiter) ∧
    r.eligEnd = eligibleEnd r.joinDate ∧
    r.cycStart = cycleStart r.date ∧
    r.cycEnd = cycleEnd r.date ∧
    Date.le r.joinDate r.date ∧ Date.le r.date r.eligEnd ∧
    ∃ n ∈ rows, n.empID = r.empID ∧ n.name = r.name ∧ n.date = r.date ∧
      n.hours = r.hours ∧ n.leave = r.leave := by
  simp only [eligibleRows, List.mem_filter, List.mem_filterMap] at h
  obtain ⟨⟨n, hn, hm⟩, hflt⟩ := h
  obtain ⟨jr, hjr, heq⟩ := Option.map_eq_some'.mp hm
  subst heq
  rw [Bool.and_eq_true, decide_eq_true_eq, decide_eq_true_eq] at hflt
  exact ⟨by rw [hjr], rfl, rfl, rfl, hflt.1, hflt.2,
    n, hn, rfl, rfl, rfl, rfl, rfl⟩

theorem dailyAgg_mem {thr : ℚ} {rows : List JoinedRec} {rec : DailyRec}
    (h : rec ∈ dailyAgg thr rows) :
    rec.key ∈ rows.map keyOf ∧
    rec.totalHours =
      ((rows.filter (fun r => decide (keyOf r = rec.key))).map
        JoinedRec.hours).sum ∧
    rec.anyLeave =
      (rows.filter (fun r => decide (keyOf r = rec.key))).any
        JoinedRec.leave ∧
    rec.workedDay = workedDayOf rec.anyLeave rec.totalHours thr := by
  simp only [dailyAgg, List.mem_map] at h
  obtain ⟨k, hk, rfl⟩ := h
  exact ⟨List.mem_dedup.mp hk, rfl, rfl, rfl⟩

theorem dailyAgg_nodup_keys (thr : ℚ) (rows : List JoinedRec) :
    ((dailyAgg thr rows).map DailyRec.key).Nodup := by
  have hcomp : DailyRec.key ∘ mkDaily thr rows = id := funext fun k => rfl
  simp only [dailyAgg, List.map_map, hcomp, List.map_id]
  exact List.nodup_dedup _

theorem dailyAgg_key_inj {thr : ℚ} {rows : List JoinedRec} {x y : DailyRec}
    (hx : x ∈ dailyAgg thr rows) (hy : y ∈ dailyAgg thr rows)
    (hk : x.key = y.key) : x = y := by
  simp only [dailyAgg, List.mem_map] at hx hy
  obtain ⟨kx, _, rfl⟩ := hx
  obtain ⟨ky, _, rfl⟩ := hy
  have h2 : kx = ky := hk
  rw [h2]

/-- Fields of a daily groupby key are determined by the employee id and
the date: join date and recruiter come from the masterlist lookup, the
eligibility end from the join date, the cycle bounds from the date. -/
theorem key_det {mst : List (String × Date × String)} {rows : List NormRow}
    {k : DailyKey} (h : k ∈ (eligibleRows mst rows).map keyOf) :
    dictLookup mst k.empID = some (k.joinDate, k.recruiter) ∧
    k.eligEnd = eligibleEnd k.joinDate ∧
    k.cycStart = cycleStart k.date ∧
    k.cycEnd = cycleEnd k.date := by
  obtain ⟨r, hr, rfl⟩ := List.mem_map.mp h
  obtain ⟨h1, h2, h3, h4, _, _, _⟩ := elig_fields hr
  exact ⟨h1, h2, h3, h4⟩

/-- In a list with distinct images under `f`, a predicate that pins the
`f`-image down to one value holds of at most one element. -/
theorem filter_length_le_one {α : Type} (l : List α) (p : α → Bool)
    (hnd : l.Nodup)
    (huniq : ∀ x ∈ l, ∀ y ∈ l, p x = true → p y = true → x = y) :
    (l.filter p).length ≤ 1 := by
  induction l with
  | nil => simp
  | cons a l ih =>
    rw [List.filter_cons]
    have hnd2 := List.nodup_cons.mp hnd
    by_cases hpa : p a = true
    · rw [if_pos hpa]
      have hnil : l.filter p = [] := by
        rw [List.filter_eq_nil_iff]
        intro x hx hpx
        have hax := huniq a (by simp) x (by simp [hx]) hpa hpx
        exact hnd2.1 (hax ▸ hx)
      simp [hnil]
    · rw [if_neg hpa]
      exact ih hnd2.2
        (fun x hx y hy => huniq x (by simp [hx]) y (by simp [hy]))

/-- C3: for every record of the daily aggregation run with the
configured threshold, Worked_Day is 0 on any leave (regardless of
hours), else 1 iff Total_Hours reaches the effective threshold; the
threshold is max(0, hours_per_day - grace_minutes/60) computed from the
run configuration. -/
theorem worked_day_correct (hpd gm : ℚ) (rows : List JoinedRec)
    (rec : DailyRec)
    (hrec : rec ∈ dailyAgg (effective_threshold hpd gm) rows) :
    rec.workedDay =
      (if rec.anyLeave then 0
       else if effective_threshold hpd gm ≤ rec.totalHours then 1 else 0) ∧
    (rec.anyLeave = true → rec.workedDay = 0) ∧
    effective_threshold hpd gm = max 0 (hpd - gm / 60) := by
  obtain ⟨_, _, _, hwd⟩ := dailyAgg_mem hrec
  refine ⟨by simpa [workedDayOf] using hwd, ?_, rfl⟩
  intro hl
  rw [hwd]
  simp [workedDayOf, hl]

/-- Masterlist for the two-names examples: one employee "A1" joined
2024-01-01 under recruiter "R". -/
def exMst : List (String × Date × String) := [("A1", ⟨2024, 1, 1⟩, "R")]

/-- Timecard rows: employee "A1" appears twice on 2024-01-10, under two
different name spellings "X" and "Y". -/
def exRows : List NormRow :=
  [⟨"A1", "X", ⟨2024, 1, 10⟩, 8, false⟩, ⟨"A1", "Y", ⟨2024, 1, 10⟩, 8, false⟩]

def exDaily8 : List DailyRec := dailyAgg 8 (eligibleRows exMst exRows)

def exRec8 : DailyRec := exDaily8.get ⟨0, by decide⟩

def exDailyT : List DailyRec :=
  dailyAgg (effective_threshold 8 15) (eligibleRows exMst exRows)

def exRecT : DailyRec := exDailyT.get ⟨0, by decide⟩

/-- Witness for C3 on a concrete aggregated record. -/
theorem worked_day_correct_witness :
    exRecT.workedDay =
      (if exRecT.anyLeave then 0
       else if effective_threshold 8 15 ≤ exRecT.totalHours then 1 else 0) ∧
    (exRecT.anyLeave = true → exRecT.workedDay = 0) ∧
    effective_threshold 8 15 = max 0 (8 - 15 / 60) :=
  worked_day_correct 8 15 (eligibleRows exMst exRows) exRecT
    (List.get_mem _ _ _)

/-- C4 as stated is false on the code: the groupby key includes the
(normalized) name, so two timecard rows for employee "A1" on 2024-01-10
under the spellings "X" and "Y" produce two DailyWorkRecords for the
same (employee, date) pair. -/
theorem daily_agg_emp_date_not_unique :
    ((dailyAgg 8 (eligibleRows exMst exRows)).filter
      (fun rec => rec.key.empID == "A1" &&
        rec.key.date == (⟨2024, 1, 10⟩ : Date))).length = 2 := by
  decide

/-- C4 (amended): the daily aggregation produces at most one record per
(employee id, name, date) triple - the other key fields are functions of
the id and the date - and each record's Total_Hours is the sum of its
group's hours, with Any_Leave true iff some grouped row is leave. -/
theorem daily_agg_correct (mst : List (String × Date × String))
    (rows : List NormRow) (thr : ℚ) (e nm : String) (d : Date)
    (rec : DailyRec) (hrec : rec ∈ dailyAgg thr (eligibleRows mst rows)) :
    ((dailyAgg thr (eligibleRows mst rows)).filter
      (fun r => r.key.empID == e && r.key.name == nm &&
        r.key.date == d)).length ≤ 1 ∧
    rec.totalHours = (((eligibleRows mst rows).filter
      (fun r => decide (keyOf r = rec.key))).map JoinedRec.hours).sum ∧
    (rec.anyLeave = true ↔
      ∃ r ∈ (eligibleRows mst rows).filter
        (fun r => decide (keyOf r = rec.key)), r.leave = true) := by
  obtain ⟨hkm, hsum, hany, _⟩ := dailyAgg_mem hrec
  refine ⟨?_, hsum, ?_⟩
  · apply filter_length_le_one
    · exact (dailyAgg_nodup_keys thr _).of_map
    · intro x hx y hy hpx hpy
      simp only [Bool.and_eq_true, beq_iff_eq] at hpx hpy
      obtain ⟨⟨hx1, hx2⟩, hx3⟩ := hpx
      obtain ⟨⟨hy1, hy2⟩, hy3⟩ := hpy
      apply dailyAgg_key_inj hx hy
      have dx := key_det (dailyAgg_mem hx).1
      have dy := key_det (dailyAgg_mem hy).1
      have hjr : x.key.joinDate = y.key.joinDate ∧
          x.key.recruiter = y.key.recruiter := by
        have c1 := dx.1
        have c2 := dy.1
        rw [hx1] at c1
        rw [hy1] at c2
        rw [c1] at c2
        injection c2 with c3
        injection c3 with c4 c5
        exact ⟨c4, c5⟩
      exact DailyKey.ext (hx1.trans hy1.symm) (hx2.trans hy2.symm) hjr.1
        (by rw [dx.2.1, dy.2.1, hjr.1]) hjr.2 (hx3.trans hy3.symm)
        (by rw [dx.2.2.1, dy.2.2.1, hx3, hy3])
        (by rw [dx.2.2.2, dy.2.2.2, hx3, hy3])
  · rw [hany]
    exact List.any_eq_true

/-- Witness for C4 (amended) on the concrete two-name input. -/
theorem daily_agg_correct_witness :
    ((dailyAgg 8 (eligibleRows exMst exRows)).filter
      (fun r => r.key.empID == "A1" && r.key.name == "X" &&
        r.key.date == (⟨2024, 1, 10⟩ : Date))).length ≤ 1 ∧
    exRec8.totalHours = (((eligibleRows exMst exRows).filter
      (fun r => decide (keyOf r = exRec8.key))).map JoinedRec.hours).sum ∧
    (exRec8.anyLeave = true ↔
      ∃ r ∈ (eligibleRows exMst exRows).filter
        (fun r => decide (keyOf r = exRec8.key)), r.leave = true) :=
  daily_agg_correct exMst exRows 8 "A1" "X" ⟨2024, 1, 10⟩ exRec8
    (List.get_mem _ _ _)

/-! ### Cycle tables and recruiter summaries (C5, C9) -/

/-- `d.strftime("%d-%b")` (src lines 176, 193): a day-and-month label,
without the year; modelled as the (day, month) pair. -/
def labelOf (d : Date) : Nat × Nat := (d.day, d.month)

def dateRangeAux (b : Date) : Nat → Date → List Date
  | 0, _ => []
  | fuel + 1, a => if Date.le a b then a :: dateRangeAux b fuel (nextDay a) else []

/-- `pd.date_range(start, end)` (src line 174): all days from `a` to `b`
inclusive.  The fuel bounds the walk; for valid dates it is enough since
`key` strictly increases at every step. -/
def dateRange (a b : Date) : List Date :=
  dateRangeAux b (key b + 1 - key a).toNat a

/-- One row of a cycle table (src lines 178-208): identity columns,
cycle totals, and the per-day 0/1 cells addressed by day label. -/
structure CycleRow where
  empID : String
  name : String
  joinDate : Date
  eligEnd : Date
  recruiter : String
  totalHours : ℚ
  totalWorking : ℕ
  cells : Nat × Nat → ℕ

/-- The base groupby key (src lines 179-181). -/
@[ext]
structure BaseKey where
  empID : String
  name : String
  joinDate : Date
  eligEnd : Date
  recruiter : String
deriving DecidableEq, Repr

def baseKeyOf (k : DailyKey) : BaseKey :=
  ⟨k.empID, k.name, k.joinDate, k.eligEnd, k.recruiter⟩

/-- One base row (src lines 178-191): totals aggregated over the
employee's daily records in the cycle; every day column starts at 0. -/
def mkBaseRow (dcy : List DailyRec) (bk : BaseKey) : CycleRow :=
  let grp := dcy.filter (fun r => decide (baseKeyOf r.key = bk))
  ⟨bk.empID, bk.name, bk.joinDate, bk.eligEnd, bk.recruiter,
    (grp.map DailyRec.totalHours).sum, (grp.map DailyRec.workedDay).sum,
    fun _ => 0⟩

def buildBase (dcy : List DailyRec) : List CycleRow :=
  ((dcy.map (fun r => baseKeyOf r.key)).dedup).map (mkBaseRow dcy)

/-- One `base.loc[...] = r["Worked_Day"]` update (src lines 192-198):
rows matching the record's employee id and name get the record's
worked-day value at the record's day label. -/
def updateRow (r : DailyRec) (row : CycleRow) : CycleRow :=
  if row.empID = r.key.empID ∧ row.name = r.key.name then
    ⟨row.empID, row.name, row.joinDate, row.eligEnd, row.recruiter,
      row.totalHours, row.totalWorking,
      Function.update row.cells (labelOf r.key.date) r.workedDay⟩
  else row

def applyUpdates (tbl : List CycleRow) (dcy : List DailyRec) : List CycleRow :=
  dcy.foldl (fun t r => t.map (updateRow r)) tbl

structure CycleTable where
  labels : List (Nat × Nat)
  rows : List CycleRow

/-- The cycle-table builder for one cycle id (src lines 172-208).  The
cycle id string determines the (start, end) pair, which every record of
the cycle carries (`CYCLE_START`/`CYCLE_END`), so the `iloc[0]` lookup
of the bounds is modelled by the pair itself. -/
def buildTable (daily : List DailyRec) (c : Date × Date) : CycleTable :=
  let dcy := daily.filter (fun r => decide ((r.key.cycStart, r.key.cycEnd) = c))
  ⟨(dateRange c.1 c.2).map labelOf, applyUpdates (buildBase dcy) dcy⟩

/-- The recruiter summary (src lines 210-213): group the cycle table by
recruiter, sum TOTAL_WORKING, attach the day rate, and compute the
amount. -/
def buildSummary (tbl : List CycleRow) (rate : ℚ) :
    List (String × ℕ × ℚ × ℚ) :=
  ((tbl.map CycleRow.recruiter).dedup).map (fun rc =>
    let tw := ((tbl.filter (fun row => row.recruiter == rc)).map
      CycleRow.totalWorking).sum
    (rc, tw, rate, (tw : ℚ) * rate))

/-- C9: each cycle's recruiter summary has one row per distinct
recruiter of that cycle's table; each row's total is the sum of
TOTAL_WORKING over that recruiter's table rows and its amount is that
total times the configured day rate. -/
theorem recruiter_summary_correct (daily : List DailyRec) (c : Date × Date)
    (rate : ℚ) (s : String × ℕ × ℚ × ℚ)
    (hs : s ∈ buildSummary (buildTable daily c).rows rate) :
    s.2.2.2 = (s.2.1 : ℚ) * rate ∧
    s.2.2.1 = rate ∧
    s.2.1 = (((buildTable daily c).rows.filter
      (fun row => row.recruiter == s.1)).map CycleRow.totalWorking).sum ∧
    (buildSummary (buildTable daily c).rows rate).map (fun t => t.1) =
      ((buildTable daily c).rows.map CycleRow.recruiter).dedup := by
  obtain ⟨rc, hrc, rfl⟩ := List.mem_map.mp hs
  refine ⟨rfl, rfl, rfl, ?_⟩
  have hcomp :
      ((fun t => t.1) ∘ fun rc => ((rc : String),
        (((buildTable daily c).rows.filter
          (fun row => row.recruiter == rc)).map CycleRow.totalWorking).sum,
        rate,
        ((((buildTable daily c).rows.filter
          (fun row => row.recruiter == rc)).map
            CycleRow.totalWorking).sum : ℚ) * rate)) = id :=
    funext fun rc => rfl
  simp only [buildSummary, List.map_map, hcomp, List.map_id]

def exCycle : Date × Date := (⟨2023, 12, 24⟩, ⟨2024, 1, 23⟩)

def exSummary : List (String × ℕ × ℚ × ℚ) :=
  buildSummary (buildTable exDaily8 exCycle).rows 3

def exSumRow : String × ℕ × ℚ × ℚ := exSummary.get ⟨0, by decide⟩

/-- Witness for C9 on the concrete pipeline. -/
theorem recruiter_summary_correct_witness :
    exSumRow.2.2.2 = (exSumRow.2.1 : ℚ) * 3 ∧
    exSumRow.2.2.1 = 3 ∧
    exSumRow.2.1 = (((buildTable exDaily8 exCycle).rows.filter
      (fun row => row.recruiter == exSumRow.1)).map CycleRow.totalWorking).sum ∧
    (buildSummary (buildTable exDaily8 exCycle).rows 3).map (fun t => t.1) =
      ((buildTable exDaily8 exCycle).rows.map CycleRow.recruiter).dedup :=
  recruiter_summary_correct exDaily8 exCycle 3 exSumRow (List.get_mem _ _ _)

theorem dateRangeAux_spec (b : Date) (hb : b.Valid) :
    ∀ (fuel : Nat) (a : Date), a.Valid → (key b + 1 - key a).toNat ≤ fuel →
      ((∀ d, d.Valid → (d ∈ dateRangeAux b fuel a ↔
          Date.le a d ∧ Date.le d b)) ∧
        (∀ d ∈ dateRangeAux b fuel a, d.Valid) ∧
        (dateRangeAux b fuel a).Nodup) := by
  intro fuel
  induction fuel with
  | zero =>
    intro a ha hfuel
    refine ⟨?_, by simp [dateRangeAux], by simp [dateRangeAux]⟩
    intro d hd
    simp only [dateRangeAux, List.not_mem_nil, false_iff]
    rintro ⟨h1, h2⟩
    rw [le_iff_key ha.inRange hd.inRange] at h1
    rw [le_iff_key hd.inRange hb.inRange] at h2
    omega
  | succ fuel ih =>
    intro a ha hfuel
    by_cases hab : Date.le a b
    · have hstep : key a < key (nextDay a) := key_lt_nextDay ha
      have hkab : key a ≤ key b := (le_iff_key ha.inRange hb.inRange).mp hab
      have hnv : (nextDay a).Valid := nextDay_valid ha
      obtain ⟨ihmem, ihval, ihnd⟩ := ih (nextDay a) hnv (by omega)
      have hunf : dateRangeAux b (fuel + 1) a =
          a :: dateRangeAux b fuel (nextDay a) := by
        rw [dateRangeAux, if_pos hab]
      rw [hunf]
      refine ⟨?_, ?_, ?_⟩
      · intro d hd
        simp only [List.mem_cons, ihmem d hd]
        constructor
        · rintro (rfl | ⟨h1, h2⟩)
          · exact ⟨Date.le_refl d, hab⟩
          · have h3 : ¬ Date.le d a := (nextDay_le_iff ha hd).mp h1
            rcases Date.le_total a d with h | h
            · exact ⟨h, h2⟩
            · exact absurd h h3
        · rintro ⟨h1, h2⟩
          by_cases hda : d = a
          · exact Or.inl hda
          · refine Or.inr ⟨(nextDay_le_iff ha hd).mpr ?_, h2⟩
            intro hle
            exact hda (Date.le_antisymm hle h1)
      · intro d hdmem
        rcases List.mem_cons.mp hdmem with rfl | hmem
        · exact ha
        · exact ihval d hmem
      · rw [List.nodup_cons]
        refine ⟨?_, ihnd⟩
        intro hmem
        exact not_le_nextDay ha ((ihmem a ha).mp hmem).1
    · have hunf : dateRangeAux b (fuel + 1) a = [] := by
        rw [dateRangeAux, if_neg hab]
      rw [hunf]
      refine ⟨?_, by simp, List.nodup_nil⟩
      intro d hd
      simp only [List.not_mem_nil, false_iff]
      rintro ⟨h1, h2⟩
      apply hab
      rw [le_iff_key ha.inRange hb.inRange]
      rw [le_iff_key ha.inRange hd.inRange] at h1
      rw [le_iff_key hd.inRange hb.inRange] at h2
      omega

theorem mem_dateRange {a b : Date} (ha : a.Valid) (hb : b.Valid)
    {d : Date} (hd : d.Valid) :
    d ∈ dateRange a b ↔ Date.le a d ∧ Date.le d b :=
  (dateRangeAux_spec b hb _ a ha le_rfl).1 d hd

theorem dateRange_valid {a b : Date} (ha : a.Valid) (hb : b.Valid) :
    ∀ d ∈ dateRange a b, d.Valid :=
  (dateRangeAux_spec b hb _ a ha le_rfl).2.1

theorem dateRange_nodup {a b : Date} (ha : a.Valid) (hb : b.Valid) :
    (dateRange a b).Nodup :=
  (dateRangeAux_spec b hb _ a ha le_rfl).2.2

/-- Within one cycle window the day-and-month label determines the
date (the window spans at most two consecutive months). -/
theorem label_inj_window {d0 : Date} (hd0 : d0.Valid) {x y : Date}
    (hx : x.Valid) (hy : y.Valid)
    (hx1 : Date.le (cycleStart d0) x) (hx2 : Date.le x (cycleEnd d0))
    (hy1 : Date.le (cycleStart d0) y) (hy2 : Date.le y (cycleEnd d0))
    (hlab : labelOf x = labelOf y) : x = y := by
  rw [le_iff_mIdx (cycleStart_valid hd0).inRange hx.inRange] at hx1
  rw [le_iff_mIdx hx.inRange (cycleEnd_valid hd0).inRange] at hx2
  rw [le_iff_mIdx (cycleStart_valid hd0).inRange hy.inRange] at hy1
  rw [le_iff_mIdx hy.inRange (cycleEnd_valid hd0).inRange] at hy2
  have hce := cycleEnd_mIdx hd0
  have hsd := cycleStart_day d0
  have hed := cycleEnd_day d0
  obtain ⟨hxm1, hxm2, hxd1, hxd2⟩ := hx.inRange
  obtain ⟨hym1, hym2, hyd1, hyd2⟩ := hy.inRange
  injection hlab with h1 h2
  rw [eq_iff_mIdx_day hx.inRange hy.inRange]
  simp only [mIdx] at *
  omega

theorem workedDayOf_le_one (al : Bool) (th thr : ℚ) :
    workedDayOf al th thr ≤ 1 := by
  unfold workedDayOf
  split
  · omega
  · split <;> omega

theorem daily_workedDay_le_one {thr : ℚ} {rows : List JoinedRec}
    {rec : DailyRec} (h : rec ∈ dailyAgg thr rows) : rec.workedDay ≤ 1 := by
  obtain ⟨_, _, _, h4⟩ := dailyAgg_mem h
  rw [h4]
  exact workedDayOf_le_one _ _ _

/-- The per-row view of the update pass: each row absorbs the whole
record list independently. -/
def rowUpd (dcy : List DailyRec) (row : CycleRow) : CycleRow :=
  dcy.foldl (fun acc r => updateRow r acc) row

theorem applyUpdates_eq_map (dcy : List DailyRec) (tbl : List CycleRow) :
    applyUpdates tbl dcy = tbl.map (rowUpd dcy) := by
  induction dcy generalizing tbl with
  | nil =>
    show tbl = tbl.map (fun row => row)
    rw [List.map_id']
  | cons r dcy ih =>
    show applyUpdates (tbl.map (updateRow r)) dcy = _
    rw [ih, List.map_map]
    rfl

theorem updateRow_fields (r : DailyRec) (row : CycleRow) :
    (updateRow r row).empID = row.empID ∧ (updateRow r row).name = row.name ∧
    (updateRow r row).joinDate = row.joinDate ∧
    (updateRow r row).eligEnd = row.eligEnd ∧
    (updateRow r row).recruiter = row.recruiter ∧
    (updateRow r row).totalHours = row.totalHours ∧
    (updateRow r row).totalWorking = row.totalWorking := by
  unfold updateRow
  split <;> exact ⟨rfl, rfl, rfl, rfl, rfl, rfl, rfl⟩

theorem rowUpd_fields (dcy : List DailyRec) (row : CycleRow) :
    (rowUpd dcy row).empID = row.empID ∧ (rowUpd dcy row).name = row.name ∧
    (rowUpd dcy row).joinDate = row.joinDate ∧
    (rowUpd dcy row).eligEnd = row.eligEnd ∧
    (rowUpd dcy row).recruiter = row.recruiter ∧
    (rowUpd dcy row).totalHours = row.totalHours ∧
    (rowUpd dcy row).totalWorking = row.totalWorking := by
  induction dcy generalizing row with
  | nil => exact ⟨rfl, rfl, rfl, rfl, rfl, rfl, rfl⟩
  | cons r dcy ih =>
    obtain ⟨a1, a2, a3, a4, a5, a6, a7⟩ := ih (updateRow r row)
    obtain ⟨b1, b2, b3, b4, b5, b6, b7⟩ := updateRow_fields r row
    exact ⟨a1.trans b1, a2.trans b2, a3.trans b3, a4.trans b4,
      a5.trans b5, a6.trans b6, a7.trans b7⟩

theorem rowUpd_cells_le (dcy : List DailyRec) (row : CycleRow)
    (h0 : ∀ lab, row.cells lab ≤ 1)
    (hw : ∀ r ∈ dcy, r.workedDay ≤ 1) :
    ∀ lab, (rowUpd dcy row).cells lab ≤ 1 := by
  induction dcy generalizing row with
  | nil => exact h0
  | cons r dcy ih =>
    apply ih (updateRow r row) ?_ (fun x hx => hw x (by simp [hx]))
    intro lab
    unfold updateRow
    split
    · dsimp only
      by_cases hl : lab = labelOf r.key.date
      · rw [hl, Function.update_same]
        exact hw r (by simp)
      · rw [Function.update_noteq hl]
        exact h0 lab
    · exact h0 lab

theorem rowUpd_cells_eq (dcy : List DailyRec) (row : CycleRow)
    (lab : Nat × Nat)
    (hno : ∀ r ∈ dcy, r.key.empID = row.empID → r.key.name = row.name →
      labelOf r.key.date ≠ lab) :
    (rowUpd dcy row).cells lab = row.cells lab := by
  induction dcy generalizing row with
  | nil => rfl
  | cons r dcy ih =>
    have hemp : (updateRow r row).empID = row.empID := (updateRow_fields r row).1
    have hnm : (updateRow r row).name = row.name := (updateRow_fields r row).2.1
    have step_eq : (updateRow r row).cells lab = row.cells lab := by
      unfold updateRow
      split
      · rename_i hc
        dsimp only
        exact Function.update_noteq
          (Ne.symm (hno r (by simp) hc.1.symm hc.2.symm)) _ _
      · rfl
    have htail := ih (updateRow r row) ?_
    · exact htail.trans step_eq
    · intro r2 hr2 h1 h2
      rw [hemp] at h1
      rw [hnm] at h2
      exact hno r2 (by simp [hr2]) h1 h2

theorem table_rows_eq (daily : List DailyRec) (c : Date × Date) :
    (buildTable daily c).rows =
      (((daily.filter (fun r => decide ((r.key.cycStart, r.key.cycEnd) = c))).map
          (fun r => baseKeyOf r.key)).dedup).map
        (rowUpd (daily.filter
            (fun r => decide ((r.key.cycStart, r.key.cycEnd) = c))) ∘
          mkBaseRow (daily.filter
            (fun r => decide ((r.key.cycStart, r.key.cycEnd) = c)))) := by
  simp only [buildTable, buildBase]
  rw [applyUpdates_eq_map, List.map_map]

theorem baseKey_det {mst : List (String × Date × String)} {rows : List NormRow}
    {thr : ℚ} {c : Date × Date} {bk : BaseKey}
    (h : bk ∈ ((dailyAgg thr (eligibleRows mst rows)).filter
      (fun r => decide ((r.key.cycStart, r.key.cycEnd) = c))).map
        (fun r => baseKeyOf r.key)) :
    dictLookup mst bk.empID = some (bk.joinDate, bk.recruiter) ∧
    bk.eligEnd = eligibleEnd bk.joinDate := by
  obtain ⟨rec, hrec, rfl⟩ := List.mem_map.mp h
  have hdet := key_det (dailyAgg_mem (List.mem_filter.mp hrec).1).1
  exact ⟨hdet.1, hdet.2.1⟩

theorem daily_date_valid {mst : List (String × Date × String)}
    {rows : List NormRow} {thr : ℚ} {rec : DailyRec}
    (hval : ∀ r ∈ rows, r.date.Valid)
    (h : rec ∈ dailyAgg thr (eligibleRows mst rows)) :
    rec.key.date.Valid := by
  obtain ⟨r, hr, hkey⟩ := List.mem_map.mp (dailyAgg_mem h).1
  obtain ⟨_, _, _, _, _, _, n, hn, _, _, hdate, _, _⟩ := elig_fields hr
  rw [← hkey]
  show r.date.Valid
  rw [← hdate]
  exact hval n hn

/-- C5 is false as stated: with the two-name input, employee "A1" has
eligible records in the 2023-12-24 cycle but appears in two rows of that
cycle's table, not one. -/
theorem cycle_table_emp_two_rows :
    (((buildTable exDaily8 exCycle).rows).filter
      (fun row => row.empID == "A1")).length = 2 := by
  decide

/-- C5 (amended): for every cycle present in the aggregated data, the
cycle's table has one day column per calendar date from cycle start to
end inclusive (no duplicate labels); every (employee id, name) pair with
at least one record in the cycle appears in exactly one row; every day
cell holds 0 or 1; and a cell defaults to 0 when the row's employee has
no record on that date. -/
theorem cycle_table_correct (mst : List (String × Date × String))
    (rows : List NormRow) (thr : ℚ) (c : Date × Date) (e nm : String)
    (d : Date) (row : CycleRow) (lab : Nat × Nat)
    (hval : ∀ r ∈ rows, r.date.Valid)
    (hc : c ∈ (dailyAgg thr (eligibleRows mst rows)).map
      (fun rec => (rec.key.cycStart, rec.key.cycEnd)))
    (hrow : row ∈ (buildTable (dailyAgg thr (eligibleRows mst rows)) c).rows)
    (hd : d.Valid) (hd1 : Date.le c.1 d) (hd2 : Date.le d c.2) :
    (buildTable (dailyAgg thr (eligibleRows mst rows)) c).labels =
      (dateRange c.1 c.2).map labelOf ∧
    (buildTable (dailyAgg thr (eligibleRows mst rows)) c).labels.Nodup ∧
    (d ∈ dateRange c.1 c.2 ↔ Date.le c.1 d ∧ Date.le d c.2) ∧
    ((∃ rec ∈ dailyAgg thr (eligibleRows mst rows),
        (rec.key.cycStart, rec.key.cycEnd) = c ∧ rec.key.empID = e ∧
          rec.key.name = nm) →
      (((buildTable (dailyAgg thr (eligibleRows mst rows)) c).rows).filter
        (fun r2 => r2.empID == e && r2.name == nm)).length = 1) ∧
    row.cells lab ≤ 1 ∧
    ((∀ rec ∈ dailyAgg thr (eligibleRows mst rows),
        (rec.key.cycStart, rec.key.cycEnd) = c → rec.key.empID = row.empID →
          rec.key.name = row.name → rec.key.date ≠ d) →
      row.cells (labelOf d) = 0) := by
  obtain ⟨rec0, hrec0, hc0⟩ := List.mem_map.mp hc
  have hd0v : rec0.key.date.Valid := daily_date_valid hval hrec0
  have det0 := key_det (dailyAgg_mem hrec0).1
  have hc1 : c.1 = cycleStart rec0.key.date := by
    rw [← hc0]
    exact det0.2.2.1
  have hc2 : c.2 = cycleEnd rec0.key.date := by
    rw [← hc0]
    exact det0.2.2.2
  have hc1v : c.1.Valid := by rw [hc1]; exact cycleStart_valid hd0v
  have hc2v : c.2.Valid := by rw [hc2]; exact cycleEnd_valid hd0v
  have hwindow : ∀ rec ∈ (dailyAgg thr (eligibleRows mst rows)).filter
      (fun r => decide ((r.key.cycStart, r.key.cycEnd) = c)),
      rec.key.date.Valid ∧ Date.le c.1 rec.key.date ∧
        Date.le rec.key.date c.2 := by
    intro rec hrec
    obtain ⟨hrecD, hcyc⟩ := List.mem_filter.mp hrec
    rw [decide_eq_true_eq] at hcyc
    have hrv : rec.key.date.Valid := daily_date_valid hval hrecD
    have detr := key_det (dailyAgg_mem hrecD).1
    have hcontain := (mem_cycle_iff hrv hrv).mpr rfl
    refine ⟨hrv, ?_, ?_⟩
    · have hh : c.1 = cycleStart rec.key.date := by
        rw [← hcyc]
        exact detr.2.2.1
      rw [hh]
      exact hcontain.1
    · have hh : c.2 = cycleEnd rec.key.date := by
        rw [← hcyc]
        exact detr.2.2.2
      rw [hh]
      exact hcontain.2
  rw [table_rows_eq] at hrow
  obtain ⟨bk, hbk, hroweq⟩ := List.mem_map.mp hrow
  refine ⟨rfl, ?_, mem_dateRange hc1v hc2v hd, ?_, ?_, ?_⟩
  · -- no duplicate day labels
    show ((dateRange c.1 c.2).map labelOf).Nodup
    apply List.Nodup.map_on ?_ (dateRange_nodup hc1v hc2v)
    intro x hxmem y hymem hxy
    have hxv := dateRange_valid hc1v hc2v x hxmem
    have hyv := dateRange_valid hc1v hc2v y hymem
    obtain ⟨hxw1, hxw2⟩ := (mem_dateRange hc1v hc2v hxv).mp hxmem
    obtain ⟨hyw1, hyw2⟩ := (mem_dateRange hc1v hc2v hyv).mp hymem
    rw [hc1] at hxw1 hyw1
    rw [hc2] at hxw2 hyw2
    exact label_inj_window hd0v hxv hyv hxw1 hxw2 hyw1 hyw2 hxy
  · -- exactly one row per (employee id, name) present in the cycle
    rintro ⟨rec, hrecD, hcyc, hemp, hname⟩
    rw [table_rows_eq, List.filter_map, List.length_map]
    have hcong : ∀ bk2 ∈ (((dailyAgg thr (eligibleRows mst rows)).filter
        (fun r => decide ((r.key.cycStart, r.key.cycEnd) = c))).map
          (fun r => baseKeyOf r.key)).dedup,
        ((fun r2 => r2.empID == e && r2.name == nm) ∘
          (rowUpd ((dailyAgg thr (eligibleRows mst rows)).filter
              (fun r => decide ((r.key.cycStart, r.key.cycEnd) = c))) ∘
            mkBaseRow ((dailyAgg thr (eligibleRows mst rows)).filter
              (fun r => decide ((r.key.cycStart, r.key.cycEnd) = c))))) bk2 =
          (bk2.empID == e && bk2.name == nm) := by
      intro bk2 _
      have hf := rowUpd_fields ((dailyAgg thr (eligibleRows mst rows)).filter
        (fun r => decide ((r.key.cycStart, r.key.cycEnd) = c)))
        (mkBaseRow ((dailyAgg thr (eligibleRows mst rows)).filter
          (fun r => decide ((r.key.cycStart, r.key.cycEnd) = c))) bk2)
      simp only [Function.comp]
      rw [hf.1, hf.2.1]
      rfl
    rw [List.filter_congr hcong]
    apply Nat.le_antisymm
    · apply filter_length_le_one _ _ (List.nodup_dedup _)
      intro x hx y hy hpx hpy
      simp only [Bool.and_eq_true, beq_iff_eq] at hpx hpy
      obtain ⟨hx1, hx2⟩ := hpx
      obtain ⟨hy1, hy2⟩ := hpy
      have dx := baseKey_det (List.mem_dedup.mp hx)
      have dy := baseKey_det (List.mem_dedup.mp hy)
      have c1 := dx.1
      have c2 := dy.1
      rw [hx1] at c1
      rw [hy1] at c2
      rw [c1] at c2
      injection c2 with c3
      injection c3 with c4 c5
      exact BaseKey.ext (hx1.trans hy1.symm) (hx2.trans hy2.symm) c4
        (by rw [dx.2, dy.2, c4]) c5
    · have hbkm : baseKeyOf rec.key ∈ ((((dailyAgg thr (eligibleRows mst rows)).filter
          (fun r => decide ((r.key.cycStart, r.key.cycEnd) = c))).map
            (fun r => baseKeyOf r.key)).dedup).filter
          (fun bk2 => bk2.empID == e && bk2.name == nm) := by
        rw [List.mem_filter]
        constructor
        · rw [List.mem_dedup]
          exact List.mem_map.mpr ⟨rec, List.mem_filter.mpr
            ⟨hrecD, by rw [decide_eq_true_eq]; exact hcyc⟩, rfl⟩
        · simp only [Bool.and_eq_true, beq_iff_eq]
          exact ⟨hemp, hname⟩
      have hlen := List.length_pos.mpr (List.ne_nil_of_mem hbkm)
      omega
  · -- cells are 0 or 1
    rw [← hroweq]
    apply rowUpd_cells_le
    · intro lab2
      exact Nat.zero_le 1
    · intro r hr
      exact daily_workedDay_le_one (List.mem_filter.mp hr).1
  · -- cells default to 0 where the employee has no record
    intro hnorec
    rw [← hroweq]
    show (rowUpd ((dailyAgg thr (eligibleRows mst rows)).filter
        (fun r => decide ((r.key.cycStart, r.key.cycEnd) = c)))
      (mkBaseRow ((dailyAgg thr (eligibleRows mst rows)).filter
        (fun r => decide ((r.key.cycStart, r.key.cycEnd) = c))) bk)).cells
        (labelOf d) = 0
    have hno : ∀ r ∈ (dailyAgg thr (eligibleRows mst rows)).filter
        (fun r => decide ((r.key.cycStart, r.key.cycEnd) = c)),
        r.key.empID = (mkBaseRow ((dailyAgg thr (eligibleRows mst rows)).filter
          (fun r => decide ((r.key.cycStart, r.key.cycEnd) = c))) bk).empID →
        r.key.name = (mkBaseRow ((dailyAgg thr (eligibleRows mst rows)).filter
          (fun r => decide ((r.key.cycStart, r.key.cycEnd) = c))) bk).name →
        labelOf r.key.date ≠ labelOf d := by
      intro r hr hre hrn hlabeq
      obtain ⟨hrv, hrw1, hrw2⟩ := hwindow r hr
      have hdateeq : r.key.date = d := by
        rw [hc1] at hrw1 hd1
        rw [hc2] at hrw2 hd2
        exact label_inj_window hd0v hrv hd hrw1 hrw2 hd1 hd2 hlabeq
      have hfields := rowUpd_fields ((dailyAgg thr (eligibleRows mst rows)).filter
        (fun r => decide ((r.key.cycStart, r.key.cycEnd) = c)))
        (mkBaseRow ((dailyAgg thr (eligibleRows mst rows)).filter
          (fun r => decide ((r.key.cycStart, r.key.cycEnd) = c))) bk)
      obtain ⟨hrD, hrcyc⟩ := List.mem_filter.mp hr
      refine hnorec r hrD ?_ ?_ ?_ hdateeq
      · rw [decide_eq_true_eq] at hrcyc
        exact hrcyc
      · rw [← hroweq]
        exact hre.trans hfields.1.symm
      · rw [← hroweq]
        exact hrn.trans hfields.2.1.symm
    rw [rowUpd_cells_eq _ _ _ hno]
    rfl

def exTableRows : List CycleRow := (buildTable exDaily8 exCycle).rows

def exRow : CycleRow := exTableRows.get ⟨0, by decide⟩

/-- Witness for C5 (amended) on the concrete two-name input, at the
cycle 2023-12-24 to 2024-01-23 and the date 2024-01-10. -/
theorem cycle_table_correct_witness :
    (∀ r ∈ exRows, r.date.Valid) ∧
    exCycle ∈ exDaily8.map (fun rec => (rec.key.cycStart, rec.key.cycEnd)) ∧
    Date.Valid ⟨2024, 1, 10⟩ ∧
    Date.le exCycle.1 ⟨2024, 1, 10⟩ ∧ Date.le (⟨2024, 1, 10⟩ : Date) exCycle.2 ∧
    ((buildTable exDaily8 exCycle).labels =
      (dateRange exCycle.1 exCycle.2).map labelOf ∧
    (buildTable exDaily8 exCycle).labels.Nodup ∧
    ((⟨2024, 1, 10⟩ : Date) ∈ dateRange exCycle.1 exCycle.2 ↔
      Date.le exCycle.1 ⟨2024, 1, 10⟩ ∧
        Date.le (⟨2024, 1, 10⟩ : Date) exCycle.2) ∧
    ((∃ rec ∈ exDaily8,
        (rec.key.cycStart, rec.key.cycEnd) = exCycle ∧ rec.key.empID = "A1" ∧
          rec.key.name = "X") →
      (((buildTable exDaily8 exCycle).rows).filter
        (fun r2 => r2.empID == "A1" && r2.name == "X")).length = 1) ∧
    exRow.cells (10, 1) ≤ 1 ∧
    ((∀ rec ∈ exDaily8,
        (rec.key.cycStart, rec.key.cycEnd) = exCycle →
          rec.key.empID = exRow.empID → rec.key.name = exRow.name →
          rec.key.date ≠ ⟨2024, 1, 10⟩) →
      exRow.cells (labelOf ⟨2024, 1, 10⟩) = 0)) :=
  ⟨by decide, by decide, by decide, by decide, by decide,
    cycle_table_correct exMst exRows 8 exCycle "A1" "X" ⟨2024, 1, 10⟩ exRow
      (10, 1) (by decide) (by decide) (List.get_mem _ _ _) (by decide)
      (by decide) (by decide)⟩

end JabilClaim
